import Mathlib

/-!
Verification of the BIGSI core (`src/bigsi.c`, Berkeley-DB-backed variant) and
the configuration record (`src/config.c`) of the ddevil repository.

The C code is shallowly embedded: the mutable `bigsi_t` struct becomes a Lean
structure threaded through pure functions, the two Berkeley DB tables become
lists indexed by their integer keys, and every fallible C path returns an
`Option`/error-code pair mirroring the C return conventions.
-/

set_option maxHeartbeats 1000000

/-- Modelled from the spec: the bit-vector primitive (`bitvector.c` is not part
of the provided sources; §3 of the spec states its contract: fixed capacity,
packed bits, cached popcount). The backing buffer is the list of bits, so the
invariant "buffer length equals capacity" holds by construction. -/
structure bitvector where
  bits : List Bool
deriving DecidableEq, Repr

/-- Modelled from the spec: capacity is the bit count fixed at construction. -/
def bitvector.capacity (bv : bitvector) : Nat := bv.bits.length

/-- Modelled from the spec: a fresh bit vector of `n` zero bits (`bvInit`). -/
def bvInit (n : Nat) : bitvector := ⟨List.replicate n false⟩

/-- Modelled from the spec: popcount of the bits in `[0, capacity)` (`bvCount`). -/
def bvCount (bv : bitvector) : Nat := bv.bits.count true

/-- Modelled from the spec: `get(i)` fails if `i ≥ capacity` (`bvGet`). -/
def bvGet (bv : bitvector) (i : Nat) : Option Bool := bv.bits.get? i

/-- Modelled from the spec: `set(i, v)` fails if `i ≥ capacity` (`bvSet`). -/
def bvSet (bv : bitvector) (i : Nat) (v : Bool) : Option bitvector :=
  if i < bv.bits.length then some ⟨bv.bits.set i v⟩ else none

/-- Modelled from the spec: `clone` returns an identical bit vector (`bvClone`). -/
def bvClone (bv : bitvector) : bitvector := bv

/-- Modelled from the spec: `OR(a, b, dst)` with `dst = a`, requiring equal
capacities (`bvBOR` as called by `bigsQuery`: `bvBOR(result, row, result)`). -/
def bvBOR (a b : bitvector) : Option bitvector :=
  if a.bits.length = b.bits.length then some ⟨List.zipWith or a.bits b.bits⟩ else none

/-- Modelled from the spec: `AND_into(dst, src)`, requiring equal capacities
(`bvBANDupdate`). -/
def bvBANDupdate (dst src : bitvector) : Option bitvector :=
  if dst.bits.length = src.bits.length then some ⟨List.zipWith and dst.bits src.bits⟩ else none

/-- Modelled from the spec: a Bloom filter wraps a hash count and a bit vector
(`bloomfilter_t`, external collaborator per §3). -/
structure bloomfilter where
  numHashes : Nat
  bitvector : bitvector
deriving DecidableEq, Repr

/-- The `bigsi_t` struct of `src/bigsi.c`. The two Berkeley DB tables opened by
`initDBs` appear as their contents: `rowStore` (key = row index `0..numBits-1`)
and `colourStore` (key = colour `0..colourIterator-1`). `tmpBitVectors`,
`idChecker` and `colourArray` are the build-phase fields; `idChecker` keeps the
`map_set` insertion order of the seqID → colour map. -/
structure bigsi_t where
  numBits : Nat
  numHashes : Nat
  colourIterator : Nat
  indexed : Bool
  idChecker : List (String × Nat)
  tmpBitVectors : List bitvector
  colourArray : List String
  dbDirectory : String
  rowStore : List bitvector
  colourStore : List String
deriving DecidableEq, Repr

/-- `bigsInit` of `src/bigsi.c`: a fresh, unindexed BIGSI (allocation success
assumed; the `numBits > 0`, `numHashes > 0` asserts become hypotheses of the
reachability predicate). -/
def bigsInit (numBits numHashes : Nat) (dbDir : String) : bigsi_t :=
  { numBits := numBits
    numHashes := numHashes
    colourIterator := 0
    indexed := false
    idChecker := []
    tmpBitVectors := []
    colourArray := []
    dbDirectory := dbDir
    rowStore := []
    colourStore := [] }

/-- The error kinds `bigsAdd` can report (`src/bigsi.c` distinguishes them only
by the message printed to stderr; all return `-1`). -/
inductive AddErr where
  | dupSeqID
  | emptyBF
  | incompatBF
  | colourLimit
  | countMismatch
deriving DecidableEq, Repr

/-- One iteration of the `map_next` loop of `bigsAdd` (`src/bigsi.c` lines
118-165): duplicate check, empty-filter check, compatibility check, then the
three recording steps (ADD 1-3), the `colourIterator` increment and the
`MAX_COLOURS` check. `maxColours` is the compile-time constant `MAX_COLOURS`,
whose value is not fixed by the provided fragments (spec §9 Q4), so it is a
parameter here. -/
def addEntry (maxColours : Nat) (b : bigsi_t) (sid : String) (bf : bloomfilter) :
    bigsi_t × Option AddErr :=
  match b.idChecker.lookup sid with
  | some _ => (b, some AddErr.dupSeqID)
  | none =>
    if bvCount bf.bitvector = 0 then (b, some AddErr.emptyBF)
    else if bf.numHashes ≠ b.numHashes ∨ bf.bitvector.capacity ≠ b.numBits then
      (b, some AddErr.incompatBF)
    else
      let b' : bigsi_t :=
        { b with
          tmpBitVectors := b.tmpBitVectors ++ [bvClone bf.bitvector]
          idChecker := b.idChecker ++ [(sid, b.colourIterator)]
          colourArray := b.colourArray ++ [sid]
          colourIterator := b.colourIterator + 1 }
      if b'.colourIterator = maxColours then (b', some AddErr.colourLimit) else (b', none)

/-- The whole `map_next` loop of `bigsAdd`: the batch is the iteration sequence
of the input map; the `Nat` component is `inputMapCheck`. An error aborts the
loop, leaving the partial state (as the C code does). -/
def bigsAddLoop (maxColours : Nat) (b : bigsi_t) :
    List (String × bloomfilter) → bigsi_t × Option AddErr × Nat
  | [] => (b, none, 0)
  | (sid, bf) :: rest =>
    match addEntry maxColours b sid bf with
    | (b', none) =>
      match bigsAddLoop maxColours b' rest with
      | (b'', code, n) => (b'', code, n + 1)
    | (b', some e) => (b', some e, 0)

/-- `bigsAdd` of `src/bigsi.c`: runs the loop, then checks `inputMapCheck`
against `numEntries`. Array (re)allocation failures are assumed not to occur;
the arrays themselves are lists, so the growth bookkeeping is implicit. -/
def bigsAdd (maxColours : Nat) (b : bigsi_t) (entries : List (String × bloomfilter))
    (numEntries : Nat) : bigsi_t × Option AddErr :=
  match bigsAddLoop maxColours b entries with
  | (b', some e, _) => (b', some e)
  | (b', none, n) => if n ≠ numEntries then (b', some AddErr.countMismatch) else (b', none)

/-- States reachable from `bigsInit` (with its asserts satisfied) by successful
`bigsAdd` calls. -/
inductive Reachable (maxColours : Nat) : bigsi_t → Prop where
  | init : ∀ numBits numHashes dbDir, 0 < numBits → 0 < numHashes →
      Reachable maxColours (bigsInit numBits numHashes dbDir)
  | step : ∀ b entries numEntries b', Reachable maxColours b →
      bigsAdd maxColours b entries numEntries = (b', none) →
      Reachable maxColours b'

/-- Structural invariant of the build phase. -/
def AddInv (b : bigsi_t) : Prop :=
  b.tmpBitVectors.length = b.colourIterator ∧
  b.colourArray.length = b.colourIterator ∧
  (∀ bv ∈ b.tmpBitVectors, bv.capacity = b.numBits) ∧
  b.indexed = false ∧ 0 < b.numBits ∧ 0 < b.numHashes

/-- One iteration of the inner colour loop of `bigsIndex` (`src/bigsi.c` lines
233-273): NULL/bounds check on `tmpBitVectors[colour]`, `bvGet` at row `i`,
skip if 0, the defensive already-set check, then `bvSet`. -/
def indexRowStep (tmp : List bitvector) (i : Nat) (acc : Option bitvector)
    (colour : Nat) : Option bitvector :=
  match acc with
  | none => none
  | some newBV =>
    match tmp.get? colour with
    | none => none
    | some tb =>
      match bvGet tb i with
      | none => none
      | some bit =>
        if bit = false then some newBV
        else
          match bvGet newBV colour with
          | none => none
          | some cur => if cur = true then none else bvSet newBV colour true

/-- The row built by `bigsIndex` for bit position `i`: a fresh vector of
capacity `colourIterator`, with bit `colour` set when colour `colour`'s build
vector has bit `i` set. -/
def buildRow (tmp : List bitvector) (colourIterator i : Nat) : Option bitvector :=
  (List.range colourIterator).foldl (indexRowStep tmp i) (some (bvInit colourIterator))

/-- Error/success codes of `bigsQuery` (`errors.h` is not in the provided
sources; the kinds follow the error taxonomy of spec §7 and the distinct
return statements of `bigsQuery`). -/
inductive QCode where
  | ok
  | nullArgument
  | unindexed
  | hashMismatch
  | capacityMismatch
  | storageFail
  | orFail
  | andFail
deriving DecidableEq, Repr

/-- The retrieval loop of `bigsQuery` (`src/bigsi.c` lines 378-424): for each
hash value, reduce modulo `numBits`, fetch that row from the row store, return
early with `ok` if the row is empty, OR the first row into the result, AND the
later rows in place, and return early with `ok` once the result is empty.
`first` is the `i == 0` test of the C loop. -/
def queryLoop (rows : List bitvector) (numBits : Nat) :
    Bool → List Nat → bitvector → QCode × bitvector
  | _, [], res => (QCode.ok, res)
  | first, h :: rest, res =>
    match rows.get? (h % numBits) with
    | none => (QCode.storageFail, res)
    | some row =>
      if bvCount row = 0 then (QCode.ok, res)
      else if first then
        match bvBOR res row with
        | none => (QCode.orFail, res)
        | some res' => queryLoop rows numBits false rest res'
      else
        match bvBANDupdate res row with
        | none => (QCode.andFail, res)
        | some res' =>
          if bvCount res' = 0 then (QCode.ok, res')
          else queryLoop rows numBits false rest res'

/-- `bigsQuery` of `src/bigsi.c`: the four precondition checks in source order
(null arguments, unindexed, hash-count mismatch, result-capacity mismatch),
then the retrieval loop. The hash-value array is the list (its length is the
`len` argument); `none` models a NULL pointer. The returned vector is the
final contents of `result`. -/
def bigsQuery (b : bigsi_t) (hashValues : Option (List Nat))
    (result : Option bitvector) : QCode × Option bitvector :=
  match hashValues, result with
  | none, r => (QCode.nullArgument, r)
  | some _, none => (QCode.nullArgument, none)
  | some hvs, some res =>
    if b.indexed = false then (QCode.unindexed, some res)
    else if hvs.length ≠ b.numHashes then (QCode.hashMismatch, some res)
    else if res.capacity ≠ b.colourIterator then (QCode.capacityMismatch, some res)
    else
      match queryLoop b.rowStore b.numBits true hvs res with
      | (code, r) => (code, some r)

/-- `checkDB` of `src/bigsi.c`: self-check querying the hash positions
`numBits - 1 - i` for `i < numHashes`. The subtraction is C `int` arithmetic
stored into a `uint64_t`, hence the wrap modulo `2 ^ 64` for negative values. -/
def checkDB (b : bigsi_t) : Int :=
  let hvs := (List.range b.numHashes).map
    (fun i => ((((b.numBits : Int) - 1 - (i : Int)) % ((2 : Int) ^ 64)).toNat))
  match bigsQuery b (some hvs) (some (bvInit b.colourIterator)) with
  | (QCode.ok, _) => 0
  | _ => -1

/-- `bigsIndex` of `src/bigsi.c`: guard on `colourIterator ≥ 1` and not yet
indexed, build every row and store it under its bit index, copy `colourArray`
into the colour store, release the build-phase fields, set `indexed`, and run
`checkDB`. Berkeley DB put failures are assumed not to occur; every other
error path of the C loop is preserved inside `buildRow`. -/
def bigsIndex (b : bigsi_t) : Option bigsi_t :=
  if b.colourIterator < 1 then none
  else if b.indexed then none
  else
    match (List.range b.numBits).mapM (fun i => buildRow b.tmpBitVectors b.colourIterator i),
          (List.range b.colourIterator).mapM (fun c => b.colourArray.get? c) with
    | some rows, some colours =>
      let b' : bigsi_t :=
        { b with
          rowStore := rows
          colourStore := colours
          idChecker := []
          tmpBitVectors := []
          colourArray := []
          indexed := true }
      if checkDB b' = 0 then some b' else none
    | _, _ => none

/-- Error kinds of `bigsLookupColour` (all return `-1` in C, distinguished by
the stderr message). -/
inductive LookupErr where
  | unindexed
  | outOfRange
  | nullResult
  | notFound
deriving DecidableEq, Repr

/-- A Berkeley DB `get` on the colour store: keys present are exactly
`0..colourIterator-1` (the keys `bigsIndex` put), so a negative or

out-of-range key misses (`DB_NOTFOUND`). -/
def dbGetColour (store : List String) (k : Int) : Option String :=
  if k < 0 then none else store.get? k.toNat

/-- `bigsLookupColour` of `src/bigsi.c`: indexed check, then the range check
(note: the C test is `colour > colourIterator`, so `colour == colourIterator`
and negative colours pass it and fail only at the store `get`), the result
pointer check, and the store fetch. -/
def bigsLookupColour (b : bigsi_t) (colour : Int) (resultProvided : Bool) :
    Except LookupErr String :=
  if b.indexed = false then Except.error LookupErr.unindexed
  else if colour > (b.colourIterator : Int) then Except.error LookupErr.outOfRange
  else if resultProvided = false then Except.error LookupErr.nullResult
  else
    match dbGetColour b.colourStore colour with
    | none => Except.error LookupErr.notFound
    | some s => Except.ok s

/-- The on-disk form a frozen BIGSI leaves behind: the JSON metadata written by
`bigsFlush` plus the two Berkeley DB files (closing a DB flushes it). -/
structure DiskState where
  metaDbDirectory : String
  metaNumBits : Nat
  metaNumHashes : Nat
  metaColourIterator : Nat
  rowStore : List bitvector
  colourStore : List String
deriving DecidableEq, Repr

/-- `bigsFlush` of `src/bigsi.c`: refuses an un-indexed BIGSI, writes the
metadata JSON and closes (hence persists) the databases. `bigsDestroy` on an
indexed BIGSI is exactly this call. -/
def bigsFlush (b : bigsi_t) : Option DiskState :=
  if b.indexed = false then none
  else some
    { metaDbDirectory := b.dbDirectory
      metaNumBits := b.numBits
      metaNumHashes := b.numHashes
      metaColourIterator := b.colourIterator
      rowStore := b.rowStore
      colourStore := b.colourStore }

/-- `bigsLoad` of `src/bigsi.c`: start from `bigsInit 1 1 dbDir`, scan the
metadata JSON back into the struct (the scan parses the seven fields the flush
wrote, so its status is ≥ 1), reopen the databases, mark the BIGSI indexed and
run `checkDB`. -/
def bigsLoad (dbDir : String) (d : DiskState) : Option bigsi_t :=
  let b : bigsi_t :=
    { bigsInit 1 1 dbDir with
      dbDirectory := d.metaDbDirectory
      numBits := d.metaNumBits
      numHashes := d.metaNumHashes
      colourIterator := d.metaColourIterator
      rowStore := d.rowStore
      colourStore := d.colourStore
      indexed := true }
  if checkDB b = 0 then some b else none

/-- Invariant of a frozen (indexed or loaded) BIGSI's observable fields. -/
def FrozenInv (b : bigsi_t) : Prop :=
  b.indexed = true ∧ 0 < b.numBits ∧ b.rowStore.length = b.numBits ∧
  (∀ r ∈ b.rowStore, r.capacity = b.colourIterator) ∧
  b.colourStore.length = b.colourIterator

/-- The `config_t` record as used by `src/config.c` (fields written or read by
`initConfig`, `writeConfig` and `loadConfig`). The `double bloom_fp_rate` field
undergoes no arithmetic in this code, so it is modelled as a rational. -/
structure config_t where
  configFile : String
  watchDir : String
  workingDir : String
  pid : Int
  running : Bool
  k_size : Int
  sketch_size : Int
  bloom_fp_rate : Rat
  bloom_max_elements : Int
deriving DecidableEq, Repr

/-- The JSON document `writeConfig` emits via `json_fprintf` (one value per
format-string conversion; the stray comma after the `bloom_fp_rate` key in the
C format string is below this abstraction, which records which values were
written). -/
structure ConfigJson where
  configFile : String
  workingDirectory : String
  watchDirectory : String
  pid : Int
  running : Bool
  k_size : Int
  sketch_size : Int
  bloom_fp_rate : Rat
  bloom_max_elements : Int
deriving DecidableEq, Repr

/-- `writeConfig` of `src/config.c`: rejects a null config (status 1), sets
`configFile` on the record, then writes all nine values to the JSON file.
Returns the updated record and the document written. -/
def writeConfig (config : Option config_t) (configFile : String) :
    Option (config_t × ConfigJson) :=
  match config with
  | none => none
  | some c =>
    let c' : config_t := { c with configFile := configFile }
    some (c',
      { configFile := c'.configFile
        workingDirectory := c'.workingDir
        watchDirectory := c'.watchDir
        pid := c'.pid
        running := c'.running
        k_size := c'.k_size
        sketch_size := c'.sketch_size
        bloom_fp_rate := c'.bloom_fp_rate
        bloom_max_elements := c'.bloom_max_elements })

/-- `loadConfig` of `src/config.c`: `json_scanf` extracts only `configFile`,
`watchDirectory`, `pid` and `running` from the file, and exactly those four
fields of the supplied record are overwritten from the stack temporary; every
other field is untouched. -/
def loadConfig (config : config_t) (doc : ConfigJson) : config_t :=
  { config with
    configFile := doc.configFile
    watchDir := doc.watchDirectory
    pid := doc.pid
    running := doc.running }

/-! ## List and bit-vector helper lemmas -/

theorem list_lookup_append_of_none {α β : Type} [BEq α] [LawfulBEq α]
    (l : List (α × β)) (x : α) (v : β) (h : l.lookup x = none) :
    (l ++ [(x, v)]).lookup x = some v := by
  induction l with
  | nil => simp [List.lookup]
  | cons p t ih =>
    rw [List.cons_append, List.lookup] at *
    cases hpx : (x == p.1) with
    | true => simp [hpx] at h
    | false => simp only [hpx] at h ⊢; exact ih h

theorem list_lookup_append_mem {α β : Type} [BEq α] [LawfulBEq α]
    (l l2 : List (α × β)) (x : α) (v : β) (h : l.lookup x = some v) :
    (l ++ l2).lookup x = some v := by
  induction l with
  | nil => simp [List.lookup] at h
  | cons p t ih =>
    rw [List.cons_append, List.lookup] at *
    cases hpx : (x == p.1) with
    | true => simpa [hpx] using h
    | false => simp only [hpx] at h ⊢; exact ih h

theorem count_true_zipWith_and_le (a : List Bool) :
    ∀ b : List Bool, (List.zipWith and a b).count true ≤ a.count true := by
  induction a with
  | nil => intro b; simp
  | cons x xs ih =>
    intro b
    cases b with
    | nil => simp
    | cons y ys =>
      have h1 := ih ys
      cases x <;> cases y <;>
        simp only [List.zipWith, Bool.and_self, Bool.true_and, Bool.false_and,
          Bool.and_false, Bool.and_true, List.count_cons] <;> simp <;> omega

theorem count_true_eq_zero_all_false {l : List Bool} (h : l.count true = 0) :
    ∀ x ∈ l, x = false := by
  intro x hx
  have := List.count_eq_zero.mp h
  cases x with
  | false => rfl
  | true => exact absurd hx this

theorem zipWith_and_zero_left (a : List Bool) :
    ∀ b : List Bool, a.length = b.length → a.count true = 0 →
      List.zipWith and a b = a := by
  induction a with
  | nil => intro b _ _; simp
  | cons x xs ih =>
    intro b hlen hc
    cases b with
    | nil => simp at hlen
    | cons y ys =>
      have hx : x = false :=
        count_true_eq_zero_all_false hc x (List.mem_cons_self x xs)
      subst hx
      simp only [List.zipWith, Bool.false_and, List.cons.injEq, true_and]
      refine ih ys (by simpa using hlen) ?_
      simp [List.count_cons] at hc
      omega

theorem list_mapM_get {α β : Type} (f : α → Option β) :
    ∀ (xs : List α) (l : List β), xs.mapM f = some l →
      l.length = xs.length ∧
      ∀ i x, xs.get? i = some x → ∃ y, f x = some y ∧ l.get? i = some y := by
  intro xs
  induction xs with
  | nil =>
    intro l h
    rw [← List.mapM'_eq_mapM] at h
    simp only [List.mapM', Option.pure_def, Option.some.injEq] at h
    subst h
    exact ⟨rfl, by intro i x hx; simp at hx⟩
  | cons x xs ih =>
    intro l h
    rw [← List.mapM'_eq_mapM] at h
    simp only [List.mapM'] at h
    cases hf : f x with
    | none => simp [hf] at h
    | some y =>
      simp only [hf, Option.pure_def, Option.bind_eq_bind, Option.some_bind] at h
      cases hm : xs.mapM' f with
      | none => simp [hm] at h
      | some l' =>
        simp only [hm, Option.some_bind, Option.some.injEq] at h
        subst h
        rw [List.mapM'_eq_mapM] at hm
        obtain ⟨hlen, hget⟩ := ih l' hm
        constructor
        · simpa using hlen
        · intro i z hz
          cases i with
          | zero => simp at hz; subst hz; exact ⟨y, hf, rfl⟩
          | succ j =>
            simp only [List.get?_cons_succ] at hz ⊢
            exact hget j z hz

theorem lget_set_self {α : Type} : ∀ (l : List α) (i : Nat) (a : α),
    i < l.length → (l.set i a).get? i = some a := by
  intro l
  induction l with
  | nil => intro i a h; simp at h
  | cons x xs ih =>
    intro i a h
    cases i with
    | zero => rfl
    | succ j => simpa using ih j a (by simpa using h)

theorem lget_set_other {α : Type} : ∀ (l : List α) (i j : Nat) (a : α),
    i ≠ j → (l.set i a).get? j = l.get? j := by
  intro l
  induction l with
  | nil => intro i j a _; simp
  | cons x xs ih =>
    intro i j a h
    cases i with
    | zero =>
      cases j with
      | zero => exact absurd rfl h
      | succ k => rfl
    | succ i2 =>
      cases j with
      | zero => rfl
      | succ k => simpa using ih i2 k a (fun e => h (by rw [e]))

theorem lget_replicate {α : Type} (d : α) : ∀ (n c : Nat), c < n →
    (List.replicate n d).get? c = some d := by
  intro n
  induction n with
  | zero => intro c h; simp at h
  | succ m ih =>
    intro c h
    cases c with
    | zero => rfl
    | succ k =>
      rw [List.replicate_succ, List.get?_cons_succ]
      exact ih k (by omega)

theorem lgetD_eq {α : Type} {l : List α} {i : Nat} {x : α} (d : α)
    (h : l.get? i = some x) : l.getD i d = x := by
  rw [List.getD_eq_get?, h]; rfl

theorem replicate_getD_false : ∀ n c : Nat, (List.replicate n false).getD c false = false := by
  intro n c
  rw [List.getD_eq_get?]
  by_cases h : c < n
  · rw [lget_replicate false n c h]; rfl
  · rw [List.get?_eq_none.mpr (by simpa using Nat.le_of_not_lt h)]; rfl

/-- Characterisation of the inner colour loop of `bigsIndex`: after processing
colours `0..k-1`, the row vector has length `n`, agrees with the transposed
build vectors below `k` and is still zero from `k` upward. -/
theorem buildRow_fold_spec (tmp : List bitvector) (nb i n : Nat)
    (hlen : n ≤ tmp.length) (hcap : ∀ bv ∈ tmp, bv.capacity = nb) (hi : i < nb) :
    ∀ k, k ≤ n → ∃ row,
      (List.range k).foldl (indexRowStep tmp i) (some (bvInit n)) = some row ∧
      row.bits.length = n ∧
      (∀ c, c < k → row.bits.getD c false = (tmp.getD c (bvInit 0)).bits.getD i false) ∧
      (∀ c, k ≤ c → row.bits.getD c false = false) := by
  intro k
  induction k with
  | zero =>
    intro _
    refine ⟨bvInit n, rfl, by simp [bvInit], ?_, ?_⟩
    · intro c hc; omega
    · intro c _; exact replicate_getD_false n c
  | succ k ih =>
    intro hk
    obtain ⟨row, hfold, hrl, hlow, hhigh⟩ := ih (Nat.le_of_succ_le hk)
    have hkn : k < n := hk
    have hkt : k < tmp.length := Nat.lt_of_lt_of_le hkn hlen
    obtain ⟨tb, htb⟩ : ∃ tb, tmp.get? k = some tb := by
      cases h : tmp.get? k with
      | none => rw [List.get?_eq_none] at h; omega
      | some tb => exact ⟨tb, rfl⟩
    have htbcap : tb.capacity = nb := hcap tb (List.get?_mem htb)
    obtain ⟨bit, hbit⟩ : ∃ bit, tb.bits.get? i = some bit := by
      cases h : tb.bits.get? i with
      | none =>
        rw [List.get?_eq_none] at h
        have : tb.bits.length = nb := htbcap
        omega
      | some bit => exact ⟨bit, rfl⟩
    have htmpD : tmp.getD k (bvInit 0) = tb := lgetD_eq _ htb
    have htbD : tb.bits.getD i false = bit := lgetD_eq _ hbit
    rw [List.range_succ, List.foldl_append, hfold]
    simp only [List.foldl_cons, List.foldl_nil, indexRowStep, bvGet, htb, hbit]
    cases bit with
    | false =>
      rw [if_pos rfl]
      refine ⟨row, rfl, hrl, ?_, ?_⟩
      · intro c hc
        rcases Nat.lt_succ_iff_lt_or_eq.mp hc with h | h
        · exact hlow c h
        · subst h; rw [hhigh c (le_refl c), htmpD, htbD]
      · intro c hc; exact hhigh c (Nat.le_of_succ_le hc)
    | true =>
      rw [if_neg (by simp)]
      have hrowk : row.bits.get? k = some false := by
        have h1 : row.bits.getD k false = false := hhigh k (le_refl k)
        cases h : row.bits.get? k with
        | none => rw [List.get?_eq_none] at h; omega
        | some v =>
          rw [List.getD_eq_get?, h] at h1
          simp at h1
          rw [h1]
      simp only [hrowk]
      rw [if_neg (by simp)]
      unfold bvSet
      rw [if_pos (by omega)]
      refine ⟨⟨row.bits.set k true⟩, rfl, by simpa using hrl, ?_, ?_⟩
      · intro c hc
        rcases Nat.lt_succ_iff_lt_or_eq.mp hc with h | h
        · rw [List.getD_eq_get?, lget_set_other row.bits k c true (by omega),
            ← List.getD_eq_get?]
          exact hlow c h
        · subst h
          rw [List.getD_eq_get?, lget_set_self row.bits c true (by omega)]
          rw [htmpD, htbD]; rfl
      · intro c hc
        rw [List.getD_eq_get?, lget_set_other row.bits k c true (by omega),
          ← List.getD_eq_get?]
        exact hhigh c (by omega)

/-- The row built for bit position `i` transposes the build vectors. -/
theorem buildRow_spec (tmp : List bitvector) (nb i : Nat)
    (hcap : ∀ bv ∈ tmp, bv.capacity = nb) (hi : i < nb) :
    ∃ row, buildRow tmp tmp.length i = some row ∧ row.bits.length = tmp.length ∧
      ∀ c, c < tmp.length →
        row.bits.getD c false = (tmp.getD c (bvInit 0)).bits.getD i false := by
  obtain ⟨row, h1, h2, h3, _⟩ :=
    buildRow_fold_spec tmp nb i tmp.length (le_refl _) hcap hi tmp.length (le_refl _)
  exact ⟨row, h1, h2, h3⟩

/-- Inversion of a successful `bigsAdd` loop iteration: all four checks passed
and the entry was recorded. -/
theorem addEntry_ok_inv {mc : Nat} {b : bigsi_t} {sid : String} {bf : bloomfilter}
    {b' : bigsi_t} (h : addEntry mc b sid bf = (b', none)) :
    b.idChecker.lookup sid = none ∧ bvCount bf.bitvector ≠ 0 ∧
    bf.numHashes = b.numHashes ∧ bf.bitvector.capacity = b.numBits ∧
    b' = { b with
      tmpBitVectors := b.tmpBitVectors ++ [bvClone bf.bitvector]
      idChecker := b.idChecker ++ [(sid, b.colourIterator)]
      colourArray := b.colourArray ++ [sid]
      colourIterator := b.colourIterator + 1 } ∧
    b.colourIterator + 1 ≠ mc := by
  unfold addEntry at h
  cases hl : b.idChecker.lookup sid with
  | some v => rw [hl] at h; simp at h
  | none =>
    rw [hl] at h
    by_cases h1 : bvCount bf.bitvector = 0
    · rw [if_pos h1] at h; simp at h
    · rw [if_neg h1] at h
      by_cases h2 : bf.numHashes ≠ b.numHashes ∨ bf.bitvector.capacity ≠ b.numBits
      · rw [if_pos h2] at h; simp at h
      · rw [if_neg h2] at h
        push_neg at h2
        by_cases h3 : b.colourIterator + 1 = mc
        · simp only [h3, if_pos rfl] at h; simp at h
        · simp only [if_neg h3] at h
          obtain ⟨hb, _⟩ := Prod.mk.injEq .. ▸ h
          exact ⟨rfl, h1, h2.1, h2.2, hb.symm ▸ rfl, h3⟩

/-- A successful loop iteration preserves the build invariant. -/
theorem addEntry_preserves_inv {mc : Nat} {b : bigsi_t} {sid : String}
    {bf : bloomfilter} {b' : bigsi_t} (hinv : AddInv b)
    (h : addEntry mc b sid bf = (b', none)) : AddInv b' := by
  obtain ⟨hlen, hcol, hcap, hidx, hnb, hnh⟩ := hinv
  obtain ⟨_, _, _, hbfcap, hb', _⟩ := addEntry_ok_inv h
  subst hb'
  refine ⟨by simp [hlen], by simp [hcol], ?_, hidx, hnb, hnh⟩
  intro bv hbv
  simp only [List.mem_append, List.mem_singleton] at hbv
  rcases hbv with h | h
  · exact hcap bv h
  · subst h; exact hbfcap

/-- A successful loop iteration keeps `colourIterator` strictly below
`MAX_COLOURS` (the post-increment equality check fires exactly at the bound). -/
theorem addEntry_preserves_lt {mc : Nat} {b : bigsi_t} {sid : String}
    {bf : bloomfilter} {b' : bigsi_t} (hlt : b.colourIterator < mc)
    (h : addEntry mc b sid bf = (b', none)) : b'.colourIterator < mc := by
  obtain ⟨_, _, _, _, hb', hne⟩ := addEntry_ok_inv h
  subst hb'
  simp only []
  omega

theorem bigsAddLoop_none_inv {mc : Nat} :
    ∀ (entries : List (String × bloomfilter)) (b b' : bigsi_t) (n : Nat),
      AddInv b → bigsAddLoop mc b entries = (b', none, n) → AddInv b' := by
  intro entries
  induction entries with
  | nil =>
    intro b b' n hinv h
    simp only [bigsAddLoop, Prod.mk.injEq] at h
    exact h.1 ▸ hinv
  | cons e rest ih =>
    intro b b' n hinv h
    obtain ⟨sid, bf⟩ := e
    simp only [bigsAddLoop] at h
    cases hae : addEntry mc b sid bf with
    | mk b1 code =>
      cases code with
      | none =>
        simp only [hae] at h
        cases hloop : bigsAddLoop mc b1 rest with
        | mk b2 p =>
          obtain ⟨code2, n2⟩ := p
          simp only [hloop] at h
          simp only [Prod.mk.injEq] at h
          obtain ⟨hb2, hcode, _⟩ := h
          subst hb2
          cases code2 with
          | none => exact ih b1 b2 n2 (addEntry_preserves_inv hinv hae) hloop
          | some e2 => simp at hcode
      | some e1 =>
        simp only [hae] at h
        simp at h

theorem bigsAddLoop_none_lt {mc : Nat} :
    ∀ (entries : List (String × bloomfilter)) (b b' : bigsi_t) (n : Nat),
      b.colourIterator < mc → bigsAddLoop mc b entries = (b', none, n) →
      b'.colourIterator < mc := by
  intro entries
  induction entries with
  | nil =>
    intro b b' n hlt h
    simp only [bigsAddLoop, Prod.mk.injEq] at h
    exact h.1 ▸ hlt
  | cons e rest ih =>
    intro b b' n hlt h
    obtain ⟨sid, bf⟩ := e
    simp only [bigsAddLoop] at h
    cases hae : addEntry mc b sid bf with
    | mk b1 code =>
      cases code with
      | none =>
        simp only [hae] at h
        cases hloop : bigsAddLoop mc b1 rest with
        | mk b2 p =>
          obtain ⟨code2, n2⟩ := p
          simp only [hloop] at h
          simp only [Prod.mk.injEq] at h
          obtain ⟨hb2, hcode, _⟩ := h
          subst hb2
          cases code2 with
          | none => exact ih b1 b2 n2 (addEntry_preserves_lt hlt hae) hloop
          | some e2 => simp at hcode
      | some e1 =>
        simp only [hae] at h
        simp at h

/-- Inversion of a successful `bigsAdd` call down to its loop. -/
theorem bigsAdd_none_loop {mc : Nat} {b : bigsi_t}
    {entries : List (String × bloomfilter)} {nE : Nat} {b' : bigsi_t}
    (h : bigsAdd mc b entries nE = (b', none)) :
    ∃ n, bigsAddLoop mc b entries = (b', none, n) := by
  cases hloop : bigsAddLoop mc b entries with
  | mk b1 p =>
    obtain ⟨code, n⟩ := p
    cases code with
    | none =>
      have key : bigsAdd mc b entries nE =
          (if n ≠ nE then (b1, some AddErr.countMismatch) else (b1, none)) := by
        unfold bigsAdd
        rw [hloop]
      rw [key] at h
      by_cases hn : n ≠ nE
      · rw [if_pos hn] at h; simp at h
      · rw [if_neg hn] at h
        simp only [Prod.mk.injEq] at h
        exact ⟨n, by rw [h.1]⟩
    | some e =>
      have key : bigsAdd mc b entries nE = (b1, some e) := by
        unfold bigsAdd
        rw [hloop]
      rw [key] at h
      simp at h

/-- Every state reachable by successful adds satisfies the build invariant. -/
theorem reachable_inv {mc : Nat} {b : bigsi_t} (h : Reachable mc b) : AddInv b := by
  induction h with
  | init numBits numHashes dbDir hnb hnh =>
    exact ⟨rfl, rfl, by intro bv hbv; simp [bigsInit] at hbv, rfl, hnb, hnh⟩
  | step b entries nE b' _ hadd ih =>
    obtain ⟨n, hloop⟩ := bigsAdd_none_loop hadd
    exact bigsAddLoop_none_inv entries b b' n ih hloop

/-- Every state reachable by successful adds has `colourIterator < MAX_COLOURS`
(when `MAX_COLOURS` is positive). -/
theorem reachable_lt {mc : Nat} {b : bigsi_t} (h : Reachable mc b) (hmc : 0 < mc) :
    b.colourIterator < mc := by
  induction h with
  | init numBits numHashes dbDir hnb hnh => exact hmc
  | step b entries nE b' _ hadd ih =>
    obtain ⟨n, hloop⟩ := bigsAdd_none_loop hadd
    exact bigsAddLoop_none_lt entries b b' n ih hloop

/-- Inversion of a successful `bigsIndex` call. -/
theorem bigsIndex_some_inv {b b' : bigsi_t} (h : bigsIndex b = some b') :
    1 ≤ b.colourIterator ∧ b.indexed = false ∧
    ∃ rows colours,
      (List.range b.numBits).mapM (fun i => buildRow b.tmpBitVectors b.colourIterator i)
        = some rows ∧
      (List.range b.colourIterator).mapM (fun c => b.colourArray.get? c) = some colours ∧
      b' = { b with
        rowStore := rows
        colourStore := colours
        idChecker := []
        tmpBitVectors := []
        colourArray := []
        indexed := true } := by
  unfold bigsIndex at h
  by_cases h1 : b.colourIterator < 1
  · rw [if_pos h1] at h; simp at h
  · rw [if_neg h1] at h
    by_cases h2 : b.indexed
    · rw [if_pos h2] at h; simp at h
    · rw [if_neg h2] at h
      cases hrows : (List.range b.numBits).mapM
          (fun i => buildRow b.tmpBitVectors b.colourIterator i) with
      | none =>
        simp only [hrows] at h
        exact Option.noConfusion h
      | some rows =>
        cases hcols : (List.range b.colourIterator).mapM
            (fun c => b.colourArray.get? c) with
        | none =>
          simp only [hrows, hcols] at h
          exact Option.noConfusion h
        | some colours =>
          simp only [hrows, hcols] at h
          by_cases h3 : checkDB { b with
              rowStore := rows
              colourStore := colours
              idChecker := []
              tmpBitVectors := []
              colourArray := []
              indexed := true } = 0
          · rw [if_pos h3] at h
            refine ⟨by omega, by simpa using h2, rows, colours, rfl, rfl, ?_⟩
            exact (Option.some.inj h).symm
          · rw [if_neg h3] at h; simp at h

/-- C1. Transposition correctness of freeze: for every BIGSI built by a
sequence of successful adds, after `bigsIndex` returns ok, for every colour
`c < colourIterator` and bit position `i < numBits`, the row bit vector stored
under key `i` has bit `c` set if and only if the build-phase bit vector cloned
from colour `c`'s Bloom filter has bit `i` set. -/
theorem bigsIndex_transposition (mc : Nat) (b b' : bigsi_t)
    (hr : Reachable mc b) (hidx : bigsIndex b = some b')
    (c i : Nat) (hc : c < b.colourIterator) (hi : i < b.numBits) :
    (b'.rowStore.getD i (bvInit 0)).bits.getD c false
      = (b.tmpBitVectors.getD c (bvInit 0)).bits.getD i false := by
  obtain ⟨hlen, hacol, hcap, hidx0, hnb, hnh⟩ := reachable_inv hr
  obtain ⟨hit1, _, rows, colours, hrows, hcols, hb'⟩ := bigsIndex_some_inv hidx
  have hrs : b'.rowStore = rows := by rw [hb']
  obtain ⟨hrlen, hrget⟩ := list_mapM_get _ (List.range b.numBits) rows hrows
  have hri : (List.range b.numBits).get? i = some i := List.get?_range hi
  obtain ⟨row, hbrow, hrowsi⟩ := hrget i i hri
  obtain ⟨row2, hbrow2, hrl2, hspec⟩ := buildRow_spec b.tmpBitVectors b.numBits i hcap hi
  rw [hlen] at hbrow2
  have hrr : row = row2 := Option.some.inj (hbrow.symm.trans hbrow2)
  subst hrr
  rw [hrs, lgetD_eq _ hrowsi]
  exact hspec c (by omega)

/-- Stand-in value for the undefined `MAX_COLOURS` in concrete runs, following
spec §9 Q4's suggestion of `2^31 - 1`. -/
def mcBig : Nat := 2147483647

/-- A Bloom filter for the concrete runs: 2 hash functions, 8 bits, bit 0 set. -/
def bfA8 : bloomfilter :=
  ⟨2, ⟨[true, false, false, false, false, false, false, false]⟩⟩

/-- The BIGSI after `bigsInit(8, 2, "db")` and one successful add of `"A"`. -/
def built8 : bigsi_t := (bigsAdd mcBig (bigsInit 8 2 "db") [("A", bfA8)] 1).1

/-- The frozen BIGSI produced by `bigsIndex` on `built8`. -/
def frozen8 : bigsi_t := (bigsIndex built8).getD (bigsInit 1 1 "")

/-- Total bitwise OR, the value `bvBOR` computes when capacities agree. -/
def bvOrT (a b : bitvector) : bitvector := ⟨List.zipWith or a.bits b.bits⟩

/-- Total bitwise AND, the value `bvBANDupdate` computes when capacities agree. -/
def bvAndT (a b : bitvector) : bitvector := ⟨List.zipWith and a.bits b.bits⟩

/-- The row `bigsQuery` fetches for hash value `h`. -/
def fetchRow (b : bigsi_t) (h : Nat) : bitvector :=
  b.rowStore.getD (h % b.numBits) (bvInit 0)

theorem bvBANDupdate_some {dst src res2 : bitvector}
    (h : bvBANDupdate dst src = some res2) :
    res2 = bvAndT dst src ∧ dst.bits.length = src.bits.length := by
  unfold bvBANDupdate at h
  by_cases hl : dst.bits.length = src.bits.length
  · rw [if_pos hl] at h
    exact ⟨(Option.some.inj h).symm, hl⟩
  · rw [if_neg hl] at h
    exact Option.noConfusion h

theorem bvBOR_some {a b res2 : bitvector} (h : bvBOR a b = some res2) :
    res2 = bvOrT a b ∧ a.bits.length = b.bits.length := by
  unfold bvBOR at h
  by_cases hl : a.bits.length = b.bits.length
  · rw [if_pos hl] at h
    exact ⟨(Option.some.inj h).symm, hl⟩
  · rw [if_neg hl] at h
    exact Option.noConfusion h

theorem bvCount_bvAndT_le (a b : bitvector) : bvCount (bvAndT a b) ≤ bvCount a :=
  count_true_zipWith_and_le a.bits b.bits

theorem lget_getD {α : Type} {l : List α} {i : Nat} (d : α) (h : i < l.length) :
    l.get? i = some (l.getD i d) := by
  cases hg : l.get? i with
  | none => rw [List.get?_eq_none] at hg; omega
  | some x => rw [lgetD_eq d hg]

/-- Once past the first hash position, the retrieval loop of `bigsQuery` can
only shrink the popcount of the result. -/
theorem queryLoop_count_le (rows : List bitvector) (nb : Nat) :
    ∀ (t : List Nat) (res r : bitvector) (c : QCode),
      queryLoop rows nb false t res = (c, r) → bvCount r ≤ bvCount res := by
  intro t
  induction t with
  | nil =>
    intro res r c h
    simp only [queryLoop, Prod.mk.injEq] at h
    rw [← h.2]
  | cons hv t2 ih =>
    intro res r c h
    simp only [queryLoop] at h
    cases hget : rows.get? (hv % nb) with
    | none =>
      simp only [hget, Prod.mk.injEq] at h
      rw [← h.2]
    | some row =>
      simp only [hget] at h
      by_cases hcnt : bvCount row = 0
      · rw [if_pos hcnt] at h
        simp only [Prod.mk.injEq] at h
        rw [← h.2]
      · rw [if_neg hcnt] at h
        simp only [Bool.false_eq_true, if_false] at h
        cases hand : bvBANDupdate res row with
        | none =>
          simp only [hand, Prod.mk.injEq] at h
          rw [← h.2]
        | some res2 =>
          simp only [hand] at h
          obtain ⟨hres2, _⟩ := bvBANDupdate_some hand
          have hle : bvCount res2 ≤ bvCount res := hres2 ▸ bvCount_bvAndT_le res row
          by_cases hz : bvCount res2 = 0
          · rw [if_pos hz] at h
            simp only [Prod.mk.injEq] at h
            rw [← h.2]
            exact hle
          · rw [if_neg hz] at h
            exact le_trans (ih res2 r c h) hle

/-- Extending a successful retrieval loop with extra hash positions can only
shrink the popcount of its result (post-first-position case). -/
theorem queryLoop_extend_le (rows : List bitvector) (nb : Nat) :
    ∀ (t hvs2 : List Nat) (res r1 r2 : bitvector) (c2 : QCode),
      queryLoop rows nb false t res = (QCode.ok, r1) →
      queryLoop rows nb false (t ++ hvs2) res = (c2, r2) →
      bvCount r2 ≤ bvCount r1 := by
  intro t
  induction t with
  | nil =>
    intro hvs2 res r1 r2 c2 h1 h2
    simp only [queryLoop, Prod.mk.injEq] at h1
    rw [← h1.2]
    simp only [List.nil_append] at h2
    exact queryLoop_count_le rows nb hvs2 res r2 c2 h2
  | cons hv t2 ih =>
    intro hvs2 res r1 r2 c2 h1 h2
    simp only [List.cons_append, queryLoop] at h1 h2
    cases hget : rows.get? (hv % nb) with
    | none =>
      simp only [hget, Prod.mk.injEq] at h1
      exact absurd h1.1.symm (by simp)
    | some row =>
      simp only [hget] at h1 h2
      by_cases hcnt : bvCount row = 0
      · rw [if_pos hcnt] at h1 h2
        simp only [Prod.mk.injEq] at h1 h2
        rw [← h1.2, ← h2.2]
      · rw [if_neg hcnt] at h1 h2
        simp only [Bool.false_eq_true, if_false] at h1 h2
        cases hand : bvBANDupdate res row with
        | none =>
          simp only [hand, Prod.mk.injEq] at h1
          exact absurd h1.1.symm (by simp)
        | some res2 =>
          simp only [hand] at h1 h2
          by_cases hz : bvCount res2 = 0
          · rw [if_pos hz] at h1 h2
            simp only [Prod.mk.injEq] at h1 h2
            rw [← h1.2, ← h2.2]
          · rw [if_neg hz] at h1 h2
            exact ih hvs2 res2 r1 r2 c2 h1 h2

/-- C8. Query monotonicity: along the AND chain computed by `bigsQuery`
(`queryLoop`, entered with `first = true` exactly as `bigsQuery` enters it),
querying with more hash positions never produces more matching colours than a
(non-empty) prefix of those positions: if the loop returns ok on a prefix and
on the extended hash list, the extended result's popcount is at most the
prefix result's popcount. -/
theorem bigsQuery_monotone (rows : List bitvector) (nb : Nat)
    (res r1 r2 : bitvector) (h : Nat) (t hvs2 : List Nat)
    (h1 : queryLoop rows nb true (h :: t) res = (QCode.ok, r1))
    (h2 : queryLoop rows nb true ((h :: t) ++ hvs2) res = (QCode.ok, r2)) :
    bvCount r2 ≤ bvCount r1 := by
  simp only [List.cons_append, queryLoop] at h1 h2
  cases hget : rows.get? (h % nb) with
  | none =>
    simp only [hget, Prod.mk.injEq] at h1
    exact absurd h1.1.symm (by simp)
  | some row =>
    simp only [hget] at h1 h2
    by_cases hcnt : bvCount row = 0
    · rw [if_pos hcnt] at h1 h2
      simp only [Prod.mk.injEq] at h1 h2
      rw [← h1.2, ← h2.2]
    · rw [if_neg hcnt] at h1 h2
      simp only [if_true] at h1 h2
      cases hor : bvBOR res row with
      | none =>
        simp only [hor, Prod.mk.injEq] at h1
        exact absurd h1.1.symm (by simp)
      | some res2 =>
        simp only [hor] at h1 h2
        exact queryLoop_extend_le rows nb t hvs2 res2 r1 r2 QCode.ok h1 h2

/-- Witness for C8 at a concrete frozen store. -/
theorem bigsQuery_monotone_witness : bvCount (⟨[true]⟩ : bitvector) ≤ bvCount ⟨[true]⟩ :=
  bigsQuery_monotone [⟨[true]⟩, ⟨[true]⟩] 2 (bvInit 1) ⟨[true]⟩ ⟨[true]⟩ 0 [] [1]
    (by decide) (by decide)

theorem bvAndT_zero_left {z r : bitvector} (hz : bvCount z = 0)
    (hl : z.bits.length = r.bits.length) : bvAndT z r = z := by
  cases z with
  | mk zb =>
    unfold bvAndT
    simp only [bitvector.mk.injEq]
    exact zipWith_and_zero_left zb r.bits hl hz

theorem foldl_bvAndT_zero :
    ∀ (l : List bitvector) (z : bitvector), bvCount z = 0 →
      (∀ r ∈ l, r.capacity = z.capacity) → l.foldl bvAndT z = z := by
  intro l
  induction l with
  | nil => intro z _ _; rfl
  | cons r l2 ih =>
    intro z hz hcaps
    have hcap : r.capacity = z.capacity := hcaps r (List.mem_cons_self r l2)
    have hand : bvAndT z r = z := bvAndT_zero_left hz hcap.symm
    simp only [List.foldl_cons, hand]
    exact ih z hz (fun r2 hr2 => hcaps r2 (List.mem_cons_of_mem r hr2))

theorem bvAndT_capacity {a b : bitvector} (h : a.bits.length = b.bits.length) :
    (bvAndT a b).capacity = a.capacity := by
  unfold bvAndT bitvector.capacity
  simp [h]

theorem bvOrT_capacity {a b : bitvector} (h : a.bits.length = b.bits.length) :
    (bvOrT a b).capacity = a.capacity := by
  unfold bvOrT bitvector.capacity
  simp [h]

/-- When every fetched row is non-empty, the post-first-position retrieval loop
returns ok and computes exactly the left fold of bitwise AND over the fetched
rows. -/
theorem queryLoop_all_nonempty (rows : List bitvector) (nb cap : Nat)
    (hrows : rows.length = nb) (hnb : 0 < nb)
    (hcaps : ∀ r ∈ rows, r.capacity = cap) :
    ∀ (t : List Nat) (res : bitvector), res.capacity = cap →
      (∀ hv ∈ t, bvCount (rows.getD (hv % nb) (bvInit 0)) ≠ 0) →
      queryLoop rows nb false t res =
        (QCode.ok, (t.map (fun hv => rows.getD (hv % nb) (bvInit 0))).foldl bvAndT res) := by
  intro t
  induction t with
  | nil => intro res _ _; rfl
  | cons hv t2 ih =>
    intro res hrescap hne
    have hlt : hv % nb < rows.length := by rw [hrows]; exact Nat.mod_lt hv hnb
    have hget : rows.get? (hv % nb) = some (rows.getD (hv % nb) (bvInit 0)) :=
      lget_getD (bvInit 0) hlt
    have hmem : rows.getD (hv % nb) (bvInit 0) ∈ rows := List.get?_mem hget
    have hrowcap : (rows.getD (hv % nb) (bvInit 0)).capacity = cap := hcaps _ hmem
    have hlens : res.bits.length = (rows.getD (hv % nb) (bvInit 0)).bits.length := by
      have h1 : res.bits.length = cap := hrescap
      have h2 : (rows.getD (hv % nb) (bvInit 0)).bits.length = cap := hrowcap
      omega
    simp only [queryLoop, hget]
    rw [if_neg (hne hv (List.mem_cons_self hv t2))]
    simp only [Bool.false_eq_true, if_false]
    have hand : bvBANDupdate res (rows.getD (hv % nb) (bvInit 0)) =
        some (bvAndT res (rows.getD (hv % nb) (bvInit 0))) := by
      unfold bvBANDupdate bvAndT
      rw [if_pos hlens]
    simp only [hand]
    have hcap2 : (bvAndT res (rows.getD (hv % nb) (bvInit 0))).capacity = cap := by
      rw [bvAndT_capacity hlens]; exact hrescap
    by_cases hz : bvCount (bvAndT res (rows.getD (hv % nb) (bvInit 0))) = 0
    · rw [if_pos hz]
      have hfold : (t2.map (fun hv2 => rows.getD (hv2 % nb) (bvInit 0))).foldl bvAndT
          (bvAndT res (rows.getD (hv % nb) (bvInit 0))) =
          bvAndT res (rows.getD (hv % nb) (bvInit 0)) := by
        refine foldl_bvAndT_zero _ _ hz ?_
        intro r2 hr2
        obtain ⟨hv2, _, hr2eq⟩ := List.mem_map.mp hr2
        have hlt2 : hv2 % nb < rows.length := by rw [hrows]; exact Nat.mod_lt hv2 hnb
        have : r2 ∈ rows := by
          rw [← hr2eq]
          exact List.get?_mem (lget_getD (bvInit 0) hlt2)
        rw [hcaps r2 this, hcap2]
      rw [List.map_cons, List.foldl_cons, hfold]
    · rw [if_neg hz]
      rw [List.map_cons, List.foldl_cons]
      exact ih (bvAndT res (rows.getD (hv % nb) (bvInit 0))) hcap2
        (fun hv2 h2 => hne hv2 (List.mem_cons_of_mem hv h2))

/-- C10 (amended). `bigsQuery` does not enforce the empty-result precondition:
with a correct-capacity result vector whose bits may already be set, it returns
ok, and — provided every fetched row is non-empty — the returned vector equals
(initial contents OR first fetched row) ANDed with the remaining fetched rows,
so stale initial bits present in every fetched row survive into the result. -/
theorem bigsQuery_staleResult_amended (b : bigsi_t) (hf : FrozenInv b)
    (h : Nat) (t : List Nat) (res : bitvector)
    (hlen : (h :: t).length = b.numHashes) (hcap : res.capacity = b.colourIterator)
    (hne : ∀ hv ∈ h :: t, bvCount (fetchRow b hv) ≠ 0) :
    bigsQuery b (some (h :: t)) (some res) =
      (QCode.ok, some ((t.map (fetchRow b)).foldl bvAndT (bvOrT res (fetchRow b h)))) := by
  obtain ⟨hidx, hnb, hrows, hcaps, _⟩ := hf
  unfold bigsQuery
  simp only [hidx, hlen, hcap, ne_eq, not_true_eq_false, Bool.true_eq_false, if_false,
    ite_false]
  have hlt : h % b.numBits < b.rowStore.length := by rw [hrows]; exact Nat.mod_lt h hnb
  have hget : b.rowStore.get? (h % b.numBits) = some (fetchRow b h) :=
    lget_getD (bvInit 0) hlt
  have hmem : fetchRow b h ∈ b.rowStore := List.get?_mem hget
  have hrowcap : (fetchRow b h).capacity = b.colourIterator := hcaps _ hmem
  have hlens : res.bits.length = (fetchRow b h).bits.length := by
    have h1 : res.bits.length = b.colourIterator := hcap
    have h2 : (fetchRow b h).bits.length = b.colourIterator := hrowcap
    omega
  have hor : bvBOR res (fetchRow b h) = some (bvOrT res (fetchRow b h)) := by
    unfold bvBOR bvOrT
    rw [if_pos hlens]
  simp only [queryLoop, hget]
  rw [if_neg (hne h (List.mem_cons_self h t))]
  simp only [if_true, hor]
  have hcapor : (bvOrT res (fetchRow b h)).capacity = b.colourIterator := by
    rw [bvOrT_capacity hlens]; exact hcap
  have := queryLoop_all_nonempty b.rowStore b.numBits b.colourIterator hrows hnb hcaps
    t (bvOrT res (fetchRow b h)) hcapor
    (fun hv h2 => hne hv (List.mem_cons_of_mem h h2))
  rw [this]
  rfl

/-- C10 counterexample: on the frozen one-colour BIGSI `frozen8`, querying hash
values `[0, 5]` with a stale result vector `[true]` returns ok with `[true]`,
but (initial OR first fetched row) ANDed with the remaining fetched row — the
value the claim asserts is returned — is `[false]`: row 5 is empty and the
early exit skips the AND without clearing the result. -/
theorem bigsQuery_staleResult_cex :
    bigsQuery frozen8 (some [0, 5]) (some (⟨[true]⟩ : bitvector)) =
      (QCode.ok, some ⟨[true]⟩) ∧
    ([5].map (fetchRow frozen8)).foldl bvAndT
      (bvOrT ⟨[true]⟩ (fetchRow frozen8 0)) = ⟨[false]⟩ ∧
    (⟨[true]⟩ : bitvector) ≠ ⟨[false]⟩ := by decide

/-- Witness for C10's amended theorem at a concrete input: both fetched rows
are row 0 (non-empty), the stale bit survives. -/
theorem bigsQuery_staleResult_amended_witness :
    bigsQuery frozen8 (some [0, 8]) (some (⟨[true]⟩ : bitvector)) =
      (QCode.ok, some (([8].map (fetchRow frozen8)).foldl bvAndT
        (bvOrT ⟨[true]⟩ (fetchRow frozen8 0)))) :=
  bigsQuery_staleResult_amended frozen8 (by unfold FrozenInv; decide) 0 [8] ⟨[true]⟩
    (by decide) (by decide) (by decide)

/-- C3 (code evaluated at the failing input): on `frozen8` — numBits 8,
numHashes 2, one colour whose Bloom filter has bit 0 set — the query
`[0, 5]` with an all-zero result vector fetches the empty row 5, returns ok,
yet leaves the result at `[true]` (popcount 1), not all zeros: the early exit
returns without clearing the result ORed in from row 0. -/
theorem bigsQuery_emptyRow_bug :
    bvCount (fetchRow frozen8 5) = 0 ∧
    bigsQuery frozen8 (some [0, 5]) (some (bvInit 1)) = (QCode.ok, some ⟨[true]⟩) ∧
    bvCount (⟨[true]⟩ : bitvector) ≠ 0 := by decide

/-- `bigsQuery` reads only the indexed flag, numHashes, colourIterator,
numBits and the row store. -/
theorem bigsQuery_congr {a b : bigsi_t} (h1 : a.indexed = b.indexed)
    (h2 : a.numHashes = b.numHashes) (h3 : a.colourIterator = b.colourIterator)
    (h4 : a.rowStore = b.rowStore) (h5 : a.numBits = b.numBits) :
    ∀ hvs res, bigsQuery a hvs res = bigsQuery b hvs res := by
  intro hvs res
  unfold bigsQuery
  rw [h1, h2, h3, h4, h5]

/-- `bigsLookupColour` reads only the indexed flag, colourIterator and the
colour store. -/
theorem bigsLookupColour_congr {a b : bigsi_t} (h1 : a.indexed = b.indexed)
    (h3 : a.colourIterator = b.colourIterator) (h5 : a.colourStore = b.colourStore) :
    ∀ colour rp, bigsLookupColour a colour rp = bigsLookupColour b colour rp := by
  intro colour rp
  unfold bigsLookupColour
  rw [h1, h3, h5]

theorem bigsFlush_some_inv {b : bigsi_t} {d : DiskState} (h : bigsFlush b = some d) :
    b.indexed = true ∧
    d = ⟨b.dbDirectory, b.numBits, b.numHashes, b.colourIterator,
         b.rowStore, b.colourStore⟩ := by
  unfold bigsFlush at h
  by_cases hi : b.indexed = false
  · rw [if_pos hi] at h
    exact Option.noConfusion h
  · rw [if_neg hi] at h
    exact ⟨by simpa using hi, (Option.some.inj h).symm⟩

theorem bigsLoad_some_inv {dir : String} {d : DiskState} {b' : bigsi_t}
    (h : bigsLoad dir d = some b') :
    b' = { bigsInit 1 1 dir with
      dbDirectory := d.metaDbDirectory
      numBits := d.metaNumBits
      numHashes := d.metaNumHashes
      colourIterator := d.metaColourIterator
      rowStore := d.rowStore
      colourStore := d.colourStore
      indexed := true } := by
  unfold bigsLoad at h
  by_cases hc : checkDB { bigsInit 1 1 dir with
      dbDirectory := d.metaDbDirectory
      numBits := d.metaNumBits
      numHashes := d.metaNumHashes
      colourIterator := d.metaColourIterator
      rowStore := d.rowStore
      colourStore := d.colourStore
      indexed := true } = 0
  · rw [if_pos hc] at h
    exact (Option.some.inj h).symm
  · rw [if_neg hc] at h
    exact Option.noConfusion h

/-- C2. Persist/load round-trip: a BIGSI frozen (flushed) to disk and then
loaded back from the on-disk form is observationally indistinguishable from
the original — every query with a fixed hash-value list and every
colour-to-sequence-ID lookup return identical results. -/
theorem bigsFlush_bigsLoad_roundtrip (b : bigsi_t) (d : DiskState) (dir : String)
    (b' : bigsi_t) (hf : bigsFlush b = some d) (hl : bigsLoad dir d = some b') :
    (∀ (hvs : Option (List Nat)) (res : Option bitvector),
      bigsQuery b' hvs res = bigsQuery b hvs res) ∧
    (∀ (colour : Int) (rp : Bool),
      bigsLookupColour b' colour rp = bigsLookupColour b colour rp) := by
  obtain ⟨hidx, hd⟩ := bigsFlush_some_inv hf
  have hb' := bigsLoad_some_inv hl
  subst hd
  subst hb'
  constructor
  · exact bigsQuery_congr (by rw [hidx]) rfl rfl rfl rfl
  · exact bigsLookupColour_congr (by rw [hidx]) rfl rfl

/-- The on-disk form of `frozen8` after `bigsFlush`. -/
def disk8 : DiskState := (bigsFlush frozen8).getD ⟨"", 0, 0, 0, [], []⟩

/-- The BIGSI loaded back from `disk8`. -/
def loaded8 : bigsi_t := (bigsLoad "db2" disk8).getD (bigsInit 1 1 "")

/-- Witness for C2 at the concrete frozen store. -/
theorem bigsFlush_bigsLoad_roundtrip_witness :
    bigsQuery loaded8 (some [0, 5]) (some (bvInit 1)) =
      bigsQuery frozen8 (some [0, 5]) (some (bvInit 1)) ∧
    bigsLookupColour loaded8 0 true = bigsLookupColour frozen8 0 true :=
  ⟨(bigsFlush_bigsLoad_roundtrip frozen8 disk8 "db2" loaded8 (by decide) (by decide)).1
      (some [0, 5]) (some (bvInit 1)),
   (bigsFlush_bigsLoad_roundtrip frozen8 disk8 "db2" loaded8 (by decide) (by decide)).2
      0 true⟩

/-- Witness for C1 at the concrete one-colour build: bit 0 of stored row 0
equals bit 0 of colour 0's build vector. -/
theorem bigsIndex_transposition_witness :
    (frozen8.rowStore.getD 0 (bvInit 0)).bits.getD 0 false
      = (built8.tmpBitVectors.getD 0 (bvInit 0)).bits.getD 0 false :=
  bigsIndex_transposition mcBig built8 frozen8
    (Reachable.step (bigsInit 8 2 "db") [("A", bfA8)] 1 built8
      (Reachable.init 8 2 "db" (by decide) (by decide)) (by decide))
    (by decide) 0 0 (by decide) (by decide)

/-- C4. Colour lookup bounds: on a frozen BIGSI, `bigsLookupColour` returns an
error for every colour that is negative or at least `colourIterator` (the C
range check only rejects `colour > colourIterator`; the remaining out-of-range
keys miss in the colour store), returns the recorded sequence-ID string for
every colour in `[0, colourIterator)`, and rejects when the BIGSI is not
frozen. -/
theorem bigsLookupColour_bounds (b : bigsi_t) (hf : FrozenInv b) :
    (∀ colour : Int, colour < 0 ∨ (b.colourIterator : Int) ≤ colour →
      ∃ e, bigsLookupColour b colour true = Except.error e) ∧
    (∀ colour : Int, 0 ≤ colour → colour < (b.colourIterator : Int) →
      bigsLookupColour b colour true = Except.ok (b.colourStore.getD colour.toNat "")) ∧
    (∀ (b2 : bigsi_t) (colour : Int) (rp : Bool), b2.indexed = false →
      bigsLookupColour b2 colour rp = Except.error LookupErr.unindexed) := by
  obtain ⟨hidx, _, _, _, hcs⟩ := hf
  refine ⟨?_, ?_, ?_⟩
  · intro colour hcol
    unfold bigsLookupColour
    rw [if_neg (by rw [hidx]; simp)]
    by_cases hgt : colour > (b.colourIterator : Int)
    · rw [if_pos hgt]
      exact ⟨LookupErr.outOfRange, rfl⟩
    · rw [if_neg hgt, if_neg (by simp)]
      have hnone : dbGetColour b.colourStore colour = none := by
        unfold dbGetColour
        rcases hcol with hneg | hge
        · rw [if_pos hneg]
        · rw [if_neg (by omega)]
          rw [List.get?_eq_none]
          omega
      rw [hnone]
      exact ⟨LookupErr.notFound, rfl⟩
  · intro colour h0 hlt
    unfold bigsLookupColour
    rw [if_neg (by rw [hidx]; simp), if_neg (by omega), if_neg (by simp)]
    have hsome : dbGetColour b.colourStore colour =
        some (b.colourStore.getD colour.toNat "") := by
      unfold dbGetColour
      rw [if_neg (by omega)]
      exact lget_getD "" (by omega)
    rw [hsome]
  · intro b2 colour rp h2
    unfold bigsLookupColour
    rw [if_pos h2]

/-- Witness for C4 at the concrete frozen store. -/
theorem bigsLookupColour_bounds_witness :
    bigsLookupColour frozen8 0 true = Except.ok "A" ∧
    (∃ e, bigsLookupColour frozen8 (-1) true = Except.error e) ∧
    (∃ e, bigsLookupColour frozen8 1 true = Except.error e) := by
  refine ⟨?_, ?_, ?_⟩
  · have h := (bigsLookupColour_bounds frozen8 (by unfold FrozenInv; decide)).2.1 0
      (by decide) (by decide)
    exact h.trans (by rfl)
  · exact (bigsLookupColour_bounds frozen8 (by unfold FrozenInv; decide)).1 (-1)
      (by decide)
  · exact (bigsLookupColour_bounds frozen8 (by unfold FrozenInv; decide)).1 1
      (by decide)

/-- C6. Query precondition errors, in the order the C code checks them: null
arguments, unfrozen index, hash-count mismatch, result-capacity mismatch. The
checks are independent of the row store (the state is universally quantified)
and the result vector is returned unchanged. -/
theorem bigsQuery_precondition_errors :
    (∀ (b : bigsi_t) (r : Option bitvector),
      bigsQuery b none r = (QCode.nullArgument, r)) ∧
    (∀ (b : bigsi_t) (hvs : List Nat),
      bigsQuery b (some hvs) none = (QCode.nullArgument, none)) ∧
    (∀ (b : bigsi_t) (hvs : List Nat) (res : bitvector), b.indexed = false →
      bigsQuery b (some hvs) (some res) = (QCode.unindexed, some res)) ∧
    (∀ (b : bigsi_t) (hvs : List Nat) (res : bitvector), b.indexed = true →
      hvs.length ≠ b.numHashes →
      bigsQuery b (some hvs) (some res) = (QCode.hashMismatch, some res)) ∧
    (∀ (b : bigsi_t) (hvs : List Nat) (res : bitvector), b.indexed = true →
      hvs.length = b.numHashes → res.capacity ≠ b.colourIterator →
      bigsQuery b (some hvs) (some res) = (QCode.capacityMismatch, some res)) := by
  refine ⟨fun b r => rfl, fun b hvs => rfl, ?_, ?_, ?_⟩
  · intro b hvs res h
    unfold bigsQuery
    simp only [h]
    rw [if_pos trivial]
  · intro b hvs res h1 h2
    unfold bigsQuery
    simp only [h1]
    rw [if_neg (by simp), if_pos h2]
  · intro b hvs res h1 h2 h3
    unfold bigsQuery
    simp only [h1]
    rw [if_neg (by simp), if_neg (by rw [h2]; simp), if_pos h3]

/-- A second Bloom filter (bit 3) for a two-colour build. -/
def bfB8 : bloomfilter :=
  ⟨2, ⟨[false, false, false, true, false, false, false, false]⟩⟩

/-- A two-colour build: `"A"` (bit 0) and `"B"` (bit 3). -/
def built82 : bigsi_t :=
  (bigsAdd mcBig (bigsInit 8 2 "db") [("A", bfA8), ("B", bfB8)] 2).1

/-- The frozen two-colour BIGSI. -/
def frozen82 : bigsi_t := (bigsIndex built82).getD (bigsInit 1 1 "")

/-- Witness for C6: the concrete capacity check of spec S6 — a result vector
of capacity 1 against a frozen BIGSI with colourIterator 2 yields the
capacity-mismatch error and leaves the vector untouched. -/
theorem bigsQuery_precondition_errors_witness :
    bigsQuery frozen82 (some [0, 5]) (some (bvInit 1)) =
      (QCode.capacityMismatch, some (bvInit 1)) :=
  bigsQuery_precondition_errors.2.2.2.2 frozen82 [0, 5] (bvInit 1)
    (by decide) (by decide) (by decide)

theorem bigsAdd_single_none {mc : Nat} {b b1 : bigsi_t} {x : String}
    {bf : bloomfilter} (h : bigsAdd mc b [(x, bf)] 1 = (b1, none)) :
    addEntry mc b x bf = (b1, none) := by
  cases hae : addEntry mc b x bf with
  | mk b2 code =>
    cases code with
    | none =>
      have key : bigsAdd mc b [(x, bf)] 1 = (b2, none) := by
        simp [bigsAdd, bigsAddLoop, hae]
      rw [key] at h
      injection h with h1 h2
      rw [h1]
    | some e =>
      have key : bigsAdd mc b [(x, bf)] 1 = (b2, some e) := by
        simp [bigsAdd, bigsAddLoop, hae]
      rw [key] at h
      injection h with h1 h2
      exact Option.noConfusion h2

theorem bigsAdd_single_dup {mc : Nat} {b1 : bigsi_t} {x : String} {bf : bloomfilter}
    {v : Nat} (hv : b1.idChecker.lookup x = some v) :
    bigsAdd mc b1 [(x, bf)] 1 = (b1, some AddErr.dupSeqID) := by
  simp [bigsAdd, bigsAddLoop, addEntry, hv]

/-- C5. Duplicate rejection is state-preserving: after a successful add of
sequence ID `x`, a second single-entry add of `x` fails with the
duplicate-sequence-ID error and returns the state completely unchanged
(`colourIterator` and `idChecker` in particular); and a single batch holding
`x` twice fails with the duplicate error on the second entry, leaving
`colourIterator = 1` when starting from a fresh BIGSI. -/
theorem bigsAdd_duplicate_state :
    (∀ (mc : Nat) (b b1 : bigsi_t) (x : String) (bf1 bf2 : bloomfilter),
      bigsAdd mc b [(x, bf1)] 1 = (b1, none) →
      bigsAdd mc b1 [(x, bf2)] 1 = (b1, some AddErr.dupSeqID)) ∧
    (∀ (mc nb nh : Nat) (dir x : String) (bf1 bf2 : bloomfilter),
      bvCount bf1.bitvector ≠ 0 → bf1.numHashes = nh → bf1.bitvector.capacity = nb →
      1 ≠ mc →
      ∃ b', bigsAdd mc (bigsInit nb nh dir) [(x, bf1), (x, bf2)] 2 =
        (b', some AddErr.dupSeqID) ∧ b'.colourIterator = 1) := by
  constructor
  · intro mc b b1 x bf1 bf2 h
    have hae := bigsAdd_single_none h
    obtain ⟨hlook, _, _, _, hb1, _⟩ := addEntry_ok_inv hae
    have hl1 : b1.idChecker.lookup x = some b.colourIterator := by
      rw [hb1]
      exact list_lookup_append_of_none b.idChecker x b.colourIterator hlook
    exact bigsAdd_single_dup hl1
  · intro mc nb nh dir x bf1 bf2 hc hnh hnb hmc
    have hae1 : addEntry mc (bigsInit nb nh dir) x bf1 =
        ({ bigsInit nb nh dir with
            tmpBitVectors := [bvClone bf1.bitvector]
            idChecker := [(x, 0)]
            colourArray := [x]
            colourIterator := 1 }, none) := by
      unfold addEntry
      simp [bigsInit, hc, hnh, hnb, hmc]
    have hae2 : addEntry mc { bigsInit nb nh dir with
        tmpBitVectors := [bvClone bf1.bitvector]
        idChecker := [(x, 0)]
        colourArray := [x]
        colourIterator := 1 } x bf2 =
        ({ bigsInit nb nh dir with
            tmpBitVectors := [bvClone bf1.bitvector]
            idChecker := [(x, 0)]
            colourArray := [x]
            colourIterator := 1 }, some AddErr.dupSeqID) := by
      unfold addEntry
      simp [List.lookup]
    refine ⟨{ bigsInit nb nh dir with
        tmpBitVectors := [bvClone bf1.bitvector]
        idChecker := [(x, 0)]
        colourArray := [x]
        colourIterator := 1 }, ?_, rfl⟩
    simp [bigsAdd, bigsAddLoop, hae1, hae2]

/-- Witness for C5 at concrete inputs. -/
theorem bigsAdd_duplicate_state_witness :
    bigsAdd mcBig built8 [("A", bfA8)] 1 = (built8, some AddErr.dupSeqID) ∧
    (∃ b', bigsAdd mcBig (bigsInit 8 2 "db") [("A", bfA8), ("A", bfA8)] 2 =
      (b', some AddErr.dupSeqID) ∧ b'.colourIterator = 1) :=
  ⟨bigsAdd_duplicate_state.1 mcBig (bigsInit 8 2 "db") built8 "A" bfA8 bfA8 (by decide),
   bigsAdd_duplicate_state.2 mcBig 8 2 "db" "A" bfA8 bfA8
     (by decide) (by decide) (by decide) (by decide)⟩

/-- A minimal compatible Bloom filter for the colour-limit runs. -/
def bfTiny : bloomfilter := ⟨1, ⟨[true]⟩⟩

/-- State after an add that hits the colour limit (`MAX_COLOURS = 1`). -/
def limState1 : bigsi_t := (bigsAdd 1 (bigsInit 1 1 "d") [("A", bfTiny)] 1).1

/-- State after a further successful add on `limState1`. -/
def limState2 : bigsi_t := (bigsAdd 1 limState1 [("B", bfTiny)] 1).1

/-- C7 counterexample: with `MAX_COLOURS = 1`, the add of `"A"` returns the
colour-limit error, yet that entry IS recorded in `idChecker`, `colourArray`
and `tmpBitVectors`, with `colourIterator = MAX_COLOURS`; a subsequent add of
`"B"` then succeeds and leaves `colourIterator = 2 > MAX_COLOURS`, violating
both halves of the claim. -/
theorem bigsAdd_colourLimit_cex :
    (bigsAdd 1 (bigsInit 1 1 "d") [("A", bfTiny)] 1).2 = some AddErr.colourLimit ∧
    limState1.idChecker.lookup "A" = some 0 ∧
    limState1.colourArray = ["A"] ∧
    limState1.tmpBitVectors = [⟨[true]⟩] ∧
    limState1.colourIterator = 1 ∧
    bigsAdd 1 limState1 [("B", bfTiny)] 1 = (limState2, none) ∧
    limState2.colourIterator = 2 := by decide

/-- C7 (amended). Colour limit: for every state reachable by init and
*successful* adds, `colourIterator < MAX_COLOURS` (for positive
`MAX_COLOURS`); and an accepted entry whose increment makes `colourIterator`
reach `MAX_COLOURS` causes the add call to return the colour-limit error, but
only after the entry has been recorded in `idChecker`, `colourArray` and
`tmpBitVectors`, leaving `colourIterator = MAX_COLOURS`. -/
theorem bigsAdd_colourLimit_amended :
    (∀ (mc : Nat) (b : bigsi_t), Reachable mc b → 0 < mc → b.colourIterator < mc) ∧
    (∀ (mc : Nat) (b : bigsi_t) (sid : String) (bf : bloomfilter),
      b.idChecker.lookup sid = none → bvCount bf.bitvector ≠ 0 →
      bf.numHashes = b.numHashes → bf.bitvector.capacity = b.numBits →
      b.colourIterator + 1 = mc →
      ∃ b', bigsAdd mc b [(sid, bf)] 1 = (b', some AddErr.colourLimit) ∧
        b'.idChecker = b.idChecker ++ [(sid, b.colourIterator)] ∧
        b'.colourArray = b.colourArray ++ [sid] ∧
        b'.tmpBitVectors = b.tmpBitVectors ++ [bf.bitvector] ∧
        b'.colourIterator = mc) := by
  constructor
  · intro mc b hr hmc
    exact reachable_lt hr hmc
  · intro mc b sid bf hlook hc hnh hnb hreach
    have hae : addEntry mc b sid bf =
        ({ b with
            tmpBitVectors := b.tmpBitVectors ++ [bvClone bf.bitvector]
            idChecker := b.idChecker ++ [(sid, b.colourIterator)]
            colourArray := b.colourArray ++ [sid]
            colourIterator := b.colourIterator + 1 }, some AddErr.colourLimit) := by
      unfold addEntry
      simp only [hlook]
      rw [if_neg hc, if_neg (by push_neg; exact ⟨hnh, hnb⟩)]
      split
      · rfl
      · next hfalse => exact absurd hreach hfalse
    refine ⟨{ b with
        tmpBitVectors := b.tmpBitVectors ++ [bvClone bf.bitvector]
        idChecker := b.idChecker ++ [(sid, b.colourIterator)]
        colourArray := b.colourArray ++ [sid]
        colourIterator := b.colourIterator + 1 }, ?_, rfl, rfl, rfl, hreach⟩
    simp [bigsAdd, bigsAddLoop, hae]

/-- Witness for C7's amended theorem at concrete inputs. -/
theorem bigsAdd_colourLimit_amended_witness :
    (bigsInit 1 1 "d").colourIterator < 5 ∧
    (∃ b', bigsAdd 1 (bigsInit 1 1 "d") [("A", bfTiny)] 1 =
        (b', some AddErr.colourLimit) ∧
      b'.idChecker = (bigsInit 1 1 "d").idChecker ++ [("A", (bigsInit 1 1 "d").colourIterator)] ∧
      b'.colourArray = (bigsInit 1 1 "d").colourArray ++ ["A"] ∧
      b'.tmpBitVectors = (bigsInit 1 1 "d").tmpBitVectors ++ [bfTiny.bitvector] ∧
      b'.colourIterator = 1) :=
  ⟨bigsAdd_colourLimit_amended.1 5 (bigsInit 1 1 "d")
      (Reachable.init 1 1 "d" (by decide) (by decide)) (by decide),
   bigsAdd_colourLimit_amended.2 1 (bigsInit 1 1 "d") "A" bfTiny
      (by decide) (by decide) (by decide) (by decide) (by decide)⟩

/-- C9. Config load frame property: `loadConfig` assigns only `configFile`,
`watchDir`, `pid` and `running` from the JSON document; `k_size`,
`sketch_size`, `bloom_fp_rate` and `bloom_max_elements` (and `workingDir`) are
never modified, even though `writeConfig` emits them — so a
writeConfig-then-loadConfig round-trip into a fresh record does not restore
those four fields. -/
theorem loadConfig_frame (f c : config_t) (doc : ConfigJson) (file : String) :
    ((loadConfig f doc).k_size = f.k_size ∧
     (loadConfig f doc).sketch_size = f.sketch_size ∧
     (loadConfig f doc).bloom_fp_rate = f.bloom_fp_rate ∧
     (loadConfig f doc).bloom_max_elements = f.bloom_max_elements ∧
     (loadConfig f doc).workingDir = f.workingDir ∧
     (loadConfig f doc).configFile = doc.configFile ∧
     (loadConfig f doc).watchDir = doc.watchDirectory ∧
     (loadConfig f doc).pid = doc.pid ∧
     (loadConfig f doc).running = doc.running) ∧
    (∀ (c' : config_t) (d' : ConfigJson), writeConfig (some c) file = some (c', d') →
      d'.k_size = c.k_size ∧ d'.sketch_size = c.sketch_size ∧
      d'.bloom_fp_rate = c.bloom_fp_rate ∧ d'.bloom_max_elements = c.bloom_max_elements ∧
      (loadConfig f d').k_size = f.k_size ∧
      (loadConfig f d').sketch_size = f.sketch_size ∧
      (loadConfig f d').bloom_fp_rate = f.bloom_fp_rate ∧
      (loadConfig f d').bloom_max_elements = f.bloom_max_elements) := by
  constructor
  · exact ⟨rfl, rfl, rfl, rfl, rfl, rfl, rfl, rfl, rfl⟩
  · intro c' d' h
    unfold writeConfig at h
    injection h with h1
    injection h1 with hc hd
    subst hd
    exact ⟨rfl, rfl, rfl, rfl, rfl, rfl, rfl, rfl⟩

/-- A concrete config record with the `initConfig` defaults. -/
def cfg0 : config_t :=
  ⟨"", "watch", "work", -1, false, 7, 128, (1 : Rat) / 1000, 100000⟩

/-- The document `writeConfig` writes for `cfg0`. -/
def doc0 : ConfigJson :=
  ((writeConfig (some cfg0) "conf.json").getD
    (cfg0, ⟨"", "", "", 0, false, 0, 0, 0, 0⟩)).2

/-- Witness for C9 at a concrete record. -/
theorem loadConfig_frame_witness :
    (loadConfig cfg0 doc0).k_size = cfg0.k_size ∧ doc0.k_size = cfg0.k_size :=
  ⟨(loadConfig_frame cfg0 cfg0 doc0 "conf.json").1.1,
   ((loadConfig_frame cfg0 cfg0 doc0 "conf.json").2
      { cfg0 with configFile := "conf.json" } doc0 rfl).1⟩
